import Mathlib

/-!
Verification of the hybrid MPI/OpenMP Jacobi relaxation in
`src/src/C/hybrid_cpu.c` (IHPCSS coding challenge).

The local grids `temperature` and `temperature_last` are `(ROWS+2) × (COLUMNS+2)`
arrays of `double`; we model them as total functions `ℕ → ℕ → ℚ` (exact
arithmetic models the data flow of the stencil; the claims under study are
structural, not about IEEE rounding).  The per-iteration loops of the C code are
embedded as folds over the same index ranges the C loops traverse, in the same
order.  `ROWS` and `COLUMNS` are compile-time macros; they appear here as
parameters `R` and `C`.
-/

namespace HybridCpu

/-- Local temperature grid: row/column indexed, `(R+2) × (C+2)` cells are
meaningful; rows `0` and `R+1` are halo rows, columns `0` and `C+1` are fixed
boundary columns. -/
abbrev Grid : Type := ℕ → ℕ → ℚ

/-- Write a single cell of a grid. -/
def setCell (g : Grid) (i j : ℕ) (v : ℚ) : Grid :=
  fun i' j' => if i' = i ∧ j' = j then v else g i' j'

/-- The four-point stencil of `hybrid_cpu.c` lines 109-112 / 121-124 / 166-169:
`0.25 * (last[i+1][j] + last[i-1][j] + last[i][j+1] + last[i][j-1])`, all four
operands read from the previous-iteration grid. -/
def stencil (last : Grid) (i j : ℕ) : ℚ :=
  (1/4) * (last (i+1) j + last (i-1) j + last i (j+1) + last i (j-1))

/-- One row-update loop `for (j = 1; j <= COLUMNS; j++) temperature[i][j] = stencil`,
as in lines 107-113 (row 1), 119-125 (row ROWS) and the inner loop of 164-170. -/
def updateRow (last : Grid) (C i : ℕ) (g : Grid) : Grid :=
  (List.range C).foldl (fun g' j => setCell g' i (j+1) (stencil last i (j+1))) g

/-- The boundary-row task of thread 0 (lines 101-125): update row `1`, then
row `R`, from the previous grid (including its halo rows). -/
def boundaryTask (last : Grid) (R C : ℕ) (g : Grid) : Grid :=
  updateRow last C R (updateRow last C 1 g)

/-- The interior task (lines 159-171): `for (i = 2; i <= ROWS-1; i++)` update
row `i` from the previous grid. -/
def interiorTask (last : Grid) (R C : ℕ) (g : Grid) : Grid :=
  (List.range (R - 2)).foldl (fun g' k => updateRow last C (k+2) g') g

/-- The complete per-iteration stencil update of `temperature`: the boundary-row
task and the interior task write disjoint row ranges, so their parallel
composition is modelled by running one after the other. -/
def computeStep (last : Grid) (R C : ℕ) (g : Grid) : Grid :=
  interiorTask last R C (boundaryTask last R C g)

/-! ### The local-delta / copy-forward pass (lines 178-192) -/

/-- Traversal order of the delta loop nest: `i` from `1` to `R` (outer),
`j` from `1` to `C` (inner). -/
def cellList (R C : ℕ) : List (ℕ × ℕ) :=
  (List.range R).flatMap (fun a => (List.range C).map (fun b => (a+1, b+1)))

/-- One step of the delta loop body (lines 189-190):
`dt = fmax(fabs(temperature[i][j] - temperature_last[i][j]), dt)` followed by
`temperature_last[i][j] = temperature[i][j]`. -/
def deltaStep (cur : Grid) (st : ℚ × Grid) (p : ℕ × ℕ) : ℚ × Grid :=
  (max |cur p.1 p.2 - st.2 p.1 p.2| st.1, setCell st.2 p.1 p.2 (cur p.1 p.2))

/-- The whole delta pass: `dt` starts at `0.0` (line 179), then the loop nest
maximises the per-cell change and copies `temperature` into `temperature_last`
in the same traversal. -/
def deltaPass (R C : ℕ) (cur g : Grid) : ℚ × Grid :=
  (cellList R C).foldl (deltaStep cur) (0, g)

/-! ### The relaxation while-loop (lines 94-96, 209-210)

`while (dt_global > MAX_TEMP_ERROR && iteration <= MAX_NUMBER_OF_ITERATIONS)`
with `iteration++` first in the body, and `dt_global` overwritten by the
all-reduce before the next test.  The sequence of globally reduced deltas is
abstracted as a function `delta : ℕ → ℚ` giving the value produced by the
body execution that set `iteration` to its argument. -/

/-- Initial value of `dt_global` (line 32 of `hybrid_cpu.c`). -/
def dtGlobalInit : ℚ := 100

/-- Modelled from the spec: the convergence threshold `MAX_TEMP_ERROR` is a
compile-time macro supplied by the build, not present under `src/`; section 8
of the spec fixes the threshold of the reference scenario at `0.01`. -/
def maxTempError : ℚ := 1/100

/-- Value of `dt_global` when the loop test runs with `iteration = k`. -/
def dtgAt (delta : ℕ → ℚ) : ℕ → ℚ
  | 0 => dtGlobalInit
  | k+1 => delta (k+1)

/-- The relaxation loop, returning the final value of `iteration`. -/
def runLoop (M : ℕ) (err : ℚ) (delta : ℕ → ℚ) (it : ℕ) (dtg : ℚ) : ℕ :=
  if h : err < dtg ∧ it ≤ M then runLoop M err delta (it + 1) (delta (it + 1))
  else it
termination_by M + 1 - it
decreasing_by omega

/-! ### The nonblocking halo exchange (lines 130-155)

Each rank posts up to two sends and two receives per iteration, guarded by the
existence of the neighbour.  A message is addressed by (source rank,
destination rank, tag); the code uses tag `0` for a row flowing downward
(from rank `r` to rank `r+1`) and tag `1` for a row flowing upward. -/

/-- Addressing data of a posted point-to-point transfer: the peer rank and
the message tag. -/
structure Post where
  peer : ℕ
  tag : ℕ
deriving DecidableEq

/-- Destination slot of an inbound halo receive: `temperature_last` row `0`
(top halo) or row `R+1` (bottom halo). -/
inductive Slot
  | topHalo
  | bottomHalo
deriving DecidableEq

/-- The nonblocking sends posted by rank `r` of `n` in one iteration: a tag-1
send of `temperature[1][1..C]` to `r-1` when `r ≠ 0` (line 140), and a tag-0
send of `temperature[ROWS][1..C]` to `r+1` when `r ≠ n-1` (line 147).  The
payload is the sent row as a function of the column index. -/
def sendsOf (R n r : ℕ) (cur : Grid) : List (Post × (ℕ → ℚ)) :=
  (if r ≠ 0 then [(⟨r - 1, 1⟩, fun j => cur 1 j)] else []) ++
  (if r ≠ n - 1 then [(⟨r + 1, 0⟩, fun j => cur R j)] else [])

/-- The nonblocking receives posted by rank `r` of `n` in one iteration: tag 0
from `r-1` into the top halo when `r ≠ 0` (line 133), and tag 1 from `r+1`
into the bottom halo when `r ≠ n-1` (line 154). -/
def recvsOf (n r : ℕ) : List (Post × Slot) :=
  (if r ≠ 0 then [(⟨r - 1, 0⟩, Slot.topHalo)] else []) ++
  (if r ≠ n - 1 then [(⟨r + 1, 1⟩, Slot.bottomHalo)] else [])

/-- All payloads, across every rank `s < n`, of sends matching the receive
posted at rank `dst` with source `src` and tag `tag` (MPI matching: same
source, same destination, same tag). -/
def matchingSends (R n : ℕ) (curOf : ℕ → Grid) (dst src tag : ℕ) : List (ℕ → ℚ) :=
  (List.range n).flatMap (fun s =>
    (sendsOf R n s (curOf s)).filterMap (fun pr =>
      if s = src ∧ pr.1.peer = dst ∧ pr.1.tag = tag then some pr.2 else none))

/-- The grid `temperature_last` of rank `r` after its posted receives complete:
each halo slot holds the payload of the matching send. -/
def exchangedLast (R C n : ℕ) (curOf : ℕ → Grid) (r : ℕ) (g : Grid) : Grid :=
  fun i j =>
    if 1 ≤ j ∧ j ≤ C then
      if i = 0 ∧ r ≠ 0 then (matchingSends R n curOf r (r - 1) 0).headI j
      else if i = R + 1 ∧ r ≠ n - 1 then (matchingSends R n curOf r (r + 1) 1).headI j
      else g i j
    else g i j

/-! ### Program order within one loop body

The ordering claims about the loop body concern the communication thread
(thread 0, lines 101-156), the OpenMP barrier (line 181) and the phases every
thread executes after it.  `iterationTrace` lists these happens-before-ordered
events of one body execution in program order; an event `a` happens before an
event `b` exactly when `a` appears earlier in the list. -/

/-- Events of one loop-body execution on the communication thread, plus the
phases ordered after the barrier. -/
inductive Event
  | waitTopSend
  | waitTopRecv
  | updateTopRow
  | waitBottomSend
  | waitBottomRecv
  | updateBottomRow
  | launchHaloExchange
  | ompBarrier
  | deltaCopyPass
  | launchGlobalReduce
  | progressPrint
  | waitGlobalReduce
deriving DecidableEq

/-- Program order of one loop-body execution: `MPI_Wait` on the top send and
receive, update of row 1 (lines 104-113); `MPI_Wait` on the bottom send and
receive, update of row `ROWS` (lines 116-125); launch of the four nonblocking
transfers (lines 130-155); the barrier (line 181); the delta/copy pass
(lines 183-192); `MPI_Iallreduce` (line 199); the periodic print (lines
202-208); `MPI_Wait` on the reduction (line 209). -/
def iterationTrace : List Event :=
  [Event.waitTopSend, Event.waitTopRecv, Event.updateTopRow,
   Event.waitBottomSend, Event.waitBottomRecv, Event.updateBottomRow,
   Event.launchHaloExchange, Event.ompBarrier, Event.deltaCopyPass,
   Event.launchGlobalReduce, Event.progressPrint, Event.waitGlobalReduce]

/-- Position of an event in the program order of one loop body. -/
def eventPos (e : Event) : ℕ := iterationTrace.indexOf e

/-! ### Startup validation (lines 46-66) -/

/-- A diagnostic printed before `MPI_Abort(MPI_COMM_WORLD, status)`. -/
structure AbortAction where
  message : String
  status : ℕ

/-- The abort status used by every startup check: `EXIT_FAILURE`. -/
def exitFailureCode : ℕ := 1

/-- The startup validation sequence: the threading-support check of lines
49-53, then the `VERSION_RUN` process-count checks of lines 57-66.  Returns
the abort action of the first failing check, or `none` when the program
proceeds to the grid computation. -/
def startupCheck (version : String) (commSize provided threadMultiple : ℕ) :
    Option AbortAction :=
  if provided < threadMultiple then
    some ⟨"The threading support level is lesser than that demanded.",
      exitFailureCode⟩
  else if version = "hybrid_small" ∧ commSize ≠ 2 then
    some ⟨"The small version is meant to be run with 2 MPI processes.",
      exitFailureCode⟩
  else if version = "hybrid_big" ∧ commSize ≠ 8 then
    some ⟨"The big version is meant to be run with 8 MPI processes.",
      exitFailureCode⟩
  else none

/-! ### Per-rank iteration state across the loop (for the first-iteration claim) -/

/-- An MPI request handle: `MPI_REQUEST_NULL` or an active transfer. -/
inductive Req
  | null
  | active (id : ℕ)
deriving DecidableEq

/-- Modelled from MPI semantics (the messaging substrate is external to the
repository): `MPI_Wait` blocks only on an active request; on
`MPI_REQUEST_NULL` it returns immediately. -/
def waitBlocks : Req → Bool
  | Req.null => false
  | Req.active _ => true

/-- The four request handles at their declaration (lines 77-80): all
initialised to `MPI_REQUEST_NULL`. -/
def initRequests : Req × Req × Req × Req :=
  (Req.null, Req.null, Req.null, Req.null)

/-- Per-rank loop state: the two grids, how many halo exchanges this rank has
launched, and whether all four request handles are `MPI_REQUEST_NULL`. -/
structure SimState where
  cur : Grid
  last : Grid
  exchangesLaunched : ℕ
  reqsNull : Bool

/-- One loop-body execution as seen by one rank: stencil update of
`temperature` from `temperature_last` (including its halo rows); launch of the
exchange when a neighbour exists; delta pass copying `temperature` into
`temperature_last` rows `1..R`; the rows received by the launched exchange
(`inTop`, `inBot`) land in the halo rows of `temperature_last`, where the next
body's waits will find them. -/
def iterBody (R C : ℕ) (hasUp hasDown : Bool) (inTop inBot : ℕ → ℚ)
    (s : SimState) : SimState :=
  let newCur := computeStep s.last R C s.cur
  let afterDelta := (deltaPass R C newCur s.last).2
  { cur := newCur
    last := fun i j =>
      if i = 0 ∧ hasUp = true ∧ 1 ≤ j ∧ j ≤ C then inTop j
      else if i = R + 1 ∧ hasDown = true ∧ 1 ≤ j ∧ j ≤ C then inBot j
      else afterDelta i j
    exchangesLaunched := s.exchangesLaunched + (if hasUp || hasDown then 1 else 0)
    reqsNull := if hasUp || hasDown then false else s.reqsNull }

/-- State at the start of iteration `k+1` (after `k` body executions);
`simStateAt ... 0` is the state right before the loop: grids as produced by
`initialise_temperatures` (line 74), no exchange launched, all request
handles `MPI_REQUEST_NULL`. -/
def simStateAt (R C : ℕ) (hasUp hasDown : Bool) (inTop inBot : ℕ → ℕ → ℚ)
    (cur0 last0 : Grid) : ℕ → SimState
  | 0 => ⟨cur0, last0, 0, true⟩
  | k + 1 => iterBody R C hasUp hasDown (inTop k) (inBot k)
      (simStateAt R C hasUp hasDown inTop inBot cur0 last0 k)

/-! ### Concrete instances used by the witnesses -/

/-- A concrete temperature grid with pairwise different cell values. -/
def gridA : Grid := fun i j => (i : ℚ) * 10 + (j : ℚ)

/-- The all-zero grid. -/
def gridZ : Grid := fun _ _ => 0

/-- A concrete sequence of reduced deltas: identically zero. -/
def zeroDelta : ℕ → ℚ := fun _ => 0


/-! ### Properties of the embedded operations -/

theorem setCell_same (g : Grid) (i j : ℕ) (v : ℚ) : setCell g i j v i j = v := by
  simp [setCell]

theorem setCell_other (g : Grid) (i j i' j' : ℕ) (v : ℚ) (h : ¬(i' = i ∧ j' = j)) :
    setCell g i j v i' j' = g i' j' := by
  simp only [setCell, if_neg h]

theorem updateRow_other_row (last : Grid) (C i : ℕ) (g : Grid) (i' j' : ℕ)
    (h : i' ≠ i) : updateRow last C i g i' j' = g i' j' := by
  induction C generalizing g with
  | zero => simp [updateRow]
  | succ n ih =>
      unfold updateRow at ih ⊢
      rw [List.range_succ, List.foldl_append]
      simp only [List.foldl_cons, List.foldl_nil]
      rw [setCell_other]
      · exact ih g
      · intro hc
        exact h hc.1

theorem updateRow_cell (last : Grid) (C i : ℕ) (g : Grid) (j : ℕ)
    (h1 : 1 ≤ j) (h2 : j ≤ C) :
    updateRow last C i g i j = stencil last i j := by
  induction C generalizing g with
  | zero => omega
  | succ n ih =>
      unfold updateRow at ih ⊢
      rw [List.range_succ, List.foldl_append]
      simp only [List.foldl_cons, List.foldl_nil]
      by_cases hj : j = n + 1
      · subst hj
        rw [setCell_same]
      · have hj' : j ≤ n := by omega
        rw [setCell_other]
        · exact ih g hj'
        · intro hc
          exact hj hc.2

theorem interiorTask_other (last : Grid) (R C : ℕ) (g : Grid) (i j : ℕ)
    (h : i < 2 ∨ R - 1 < i) : interiorTask last R C g i j = g i j := by
  unfold interiorTask
  generalize hn : R - 2 = n
  have hbound : ∀ k, k < n → i ≠ k + 2 := by omega
  clear hn h
  induction n generalizing g with
  | zero => simp
  | succ m ih =>
      rw [List.range_succ, List.foldl_append]
      simp only [List.foldl_cons, List.foldl_nil]
      rw [updateRow_other_row]
      · exact ih g (fun k hk => hbound k (by omega))
      · exact hbound m (by omega)

theorem interiorTask_cell (last : Grid) (R C : ℕ) (g : Grid) (i j : ℕ)
    (hi1 : 2 ≤ i) (hi2 : i ≤ R - 1) (hj1 : 1 ≤ j) (hj2 : j ≤ C) :
    interiorTask last R C g i j = stencil last i j := by
  unfold interiorTask
  have hR : i - 2 < R - 2 := by omega
  generalize hn : R - 2 = n
  rw [hn] at hR
  clear hn hi2
  induction n generalizing g with
  | zero => omega
  | succ m ih =>
      rw [List.range_succ, List.foldl_append]
      simp only [List.foldl_cons, List.foldl_nil]
      by_cases hcase : i = m + 2
      · subst hcase
        exact updateRow_cell last C _ _ j hj1 hj2
      · have hlt : i - 2 < m := by omega
        rw [updateRow_other_row]
        · exact ih g hlt
        · exact hcase

theorem computeStep_cell (last : Grid) (R C : ℕ) (g : Grid) (i j : ℕ)
    (hi1 : 1 ≤ i) (hi2 : i ≤ R) (hj1 : 1 ≤ j) (hj2 : j ≤ C) :
    computeStep last R C g i j = stencil last i j := by
  unfold computeStep
  by_cases hint : 2 ≤ i ∧ i ≤ R - 1
  · exact interiorTask_cell last R C _ i j hint.1 hint.2 hj1 hj2
  · have hcase : i = 1 ∨ i = R := by omega
    rw [interiorTask_other last R C _ i j (by omega)]
    unfold boundaryTask
    rcases hcase with h1 | hR
    · by_cases hR1 : R = 1
      · subst h1
        rw [hR1]
        exact updateRow_cell last C 1 _ j hj1 hj2
      · rw [updateRow_other_row last C R _ i j (by omega), h1]
        exact updateRow_cell last C 1 _ j hj1 hj2
    · subst hR
      exact updateRow_cell last C i _ j hj1 hj2

theorem foldl_ext_mem {α β : Type} (f f' : β → α → β) (l : List α)
    (h : ∀ b a, a ∈ l → f b a = f' b a) : ∀ b, l.foldl f b = l.foldl f' b := by
  induction l with
  | nil => intro b; rfl
  | cons x t ih =>
      intro b
      simp only [List.foldl_cons]
      rw [h b x (List.mem_cons_self x t)]
      exact ih (fun b a ha => h b a (List.mem_cons_of_mem x ha)) _

theorem foldl_max_le {α : Type} (f : α → ℚ) (l : List α) :
    ∀ d, d ≤ l.foldl (fun d' x => max (f x) d') d ∧
      ∀ x ∈ l, f x ≤ l.foldl (fun d' x => max (f x) d') d := by
  induction l with
  | nil => intro d; exact ⟨le_refl d, by simp⟩
  | cons y t ih =>
      intro d
      simp only [List.foldl_cons]
      refine ⟨le_trans (le_max_right (f y) d) (ih _).1, ?_⟩
      intro x hx
      rcases List.mem_cons.mp hx with h | h
      · subst h
        exact le_trans (le_max_left (f x) d) (ih _).1
      · exact (ih _).2 x h

theorem foldl_max_mem {α : Type} (f : α → ℚ) (l : List α) :
    ∀ d, l.foldl (fun d' x => max (f x) d') d = d ∨
      ∃ x ∈ l, l.foldl (fun d' x => max (f x) d') d = f x := by
  induction l with
  | nil => intro d; exact Or.inl rfl
  | cons y t ih =>
      intro d
      simp only [List.foldl_cons]
      rcases ih (max (f y) d) with h | h
      · rcases max_cases (f y) d with ⟨he, _⟩ | ⟨he, _⟩
        · exact Or.inr ⟨y, List.mem_cons_self y t, h.trans he⟩
        · exact Or.inl (h.trans he)
      · rcases h with ⟨x, hx, he⟩
        exact Or.inr ⟨x, List.mem_cons_of_mem y hx, he⟩

theorem mem_cellList (R C i j : ℕ) :
    (i, j) ∈ cellList R C ↔ 1 ≤ i ∧ i ≤ R ∧ 1 ≤ j ∧ j ≤ C := by
  simp only [cellList, List.mem_flatMap, List.mem_map, List.mem_range, Prod.mk.injEq]
  constructor
  · rintro ⟨a, ha, b, hb, hi, hj⟩
    omega
  · rintro ⟨h1, h2, h3, h4⟩
    exact ⟨i - 1, by omega, j - 1, by omega, by omega, by omega⟩

theorem cellList_nodup (R C : ℕ) : (cellList R C).Nodup := by
  unfold cellList
  rw [List.nodup_flatMap]
  constructor
  · intro a _
    exact (List.nodup_range C).map (fun b b' h => by
      simpa using congrArg Prod.snd h)
  · refine (List.nodup_range R).pairwise_of_forall_ne ?_
    intro a _ b _ hab p hp hq
    simp only [List.mem_map, List.mem_range] at hp hq
    rcases hp with ⟨x, _, hx⟩
    rcases hq with ⟨y, _, hy⟩
    have h1 : p.1 = a + 1 := by rw [← hx]
    have h2 : p.1 = b + 1 := by rw [← hy]
    exact hab (by omega)

theorem deltaFold_spec (cur : Grid) (l : List (ℕ × ℕ)) (hnd : l.Nodup) :
    ∀ d (g : Grid),
      (l.foldl (deltaStep cur) (d, g)).1 =
        l.foldl (fun d' p => max |cur p.1 p.2 - g p.1 p.2| d') d ∧
      ∀ i j, (l.foldl (deltaStep cur) (d, g)).2 i j =
        if (i, j) ∈ l then cur i j else g i j := by
  induction l with
  | nil => intro d g; simp
  | cons p t ih =>
      intro d g
      have hpt : p ∉ t := (List.nodup_cons.mp hnd).1
      have hnd' : t.Nodup := (List.nodup_cons.mp hnd).2
      simp only [List.foldl_cons]
      have hstep : deltaStep cur (d, g) p =
          (max |cur p.1 p.2 - g p.1 p.2| d, setCell g p.1 p.2 (cur p.1 p.2)) := rfl
      rw [hstep]
      obtain ⟨ih1, ih2⟩ := ih hnd' (max |cur p.1 p.2 - g p.1 p.2| d)
        (setCell g p.1 p.2 (cur p.1 p.2))
      constructor
      · rw [ih1]
        refine foldl_ext_mem _ _ t ?_ _
        intro b q hq
        have hqp : q ≠ p := fun h => hpt (h ▸ hq)
        rw [setCell_other]
        intro hc
        exact hqp (Prod.ext hc.1 hc.2)
      · intro i j
        rw [ih2 i j]
        by_cases hmem : (i, j) ∈ t
        · simp [hmem, List.mem_cons_of_mem p hmem]
        · by_cases hp : (i, j) = p
          · have : i = p.1 ∧ j = p.2 := by
              constructor
              · exact congrArg Prod.fst hp
              · exact congrArg Prod.snd hp
            simp [hmem, hp, setCell, this]
          · have : ¬(i = p.1 ∧ j = p.2) := fun hc => hp (Prod.ext hc.1 hc.2)
            simp [hmem, hp, setCell, this]

theorem runLoop_spec (M : ℕ) (err : ℚ) (delta : ℕ → ℚ) :
    ∀ n it dtg, M + 1 - it ≤ n →
      it ≤ runLoop M err delta it dtg ∧
      runLoop M err delta it dtg ≤ max it (M + 1) ∧
      ((if runLoop M err delta it dtg = it then dtg
          else delta (runLoop M err delta it dtg)) ≤ err ∨
        M < runLoop M err delta it dtg) ∧
      (∀ k, it ≤ k → k < runLoop M err delta it dtg →
        err < (if k = it then dtg else delta k) ∧ k ≤ M) := by
  intro n
  induction n with
  | zero =>
      intro it dtg hle
      have hcond : ¬(err < dtg ∧ it ≤ M) := fun hc => by omega
      rw [runLoop, dif_neg hcond]
      refine ⟨le_refl it, le_max_left it (M + 1), ?_, ?_⟩
      · rw [if_pos rfl]
        rcases not_and_or.mp hcond with h | h
        · exact Or.inl (le_of_not_lt h)
        · exact Or.inr (by omega)
      · intro k h1 h2
        omega
  | succ m ih =>
      intro it dtg hle
      by_cases hcond : err < dtg ∧ it ≤ M
      · rw [runLoop, dif_pos hcond]
        obtain ⟨h1, h2, h3, h4⟩ := ih (it + 1) (delta (it + 1)) (by omega)
        refine ⟨by omega, ?_, ?_, ?_⟩
        · calc runLoop M err delta (it + 1) (delta (it + 1))
              ≤ max (it + 1) (M + 1) := h2
            _ = M + 1 := Nat.max_eq_right (by omega)
            _ ≤ max it (M + 1) := le_max_right it (M + 1)
        · rcases h3 with h3 | h3
          · left
            by_cases he : runLoop M err delta (it + 1) (delta (it + 1)) = it + 1
            · rw [if_pos he] at h3
              rw [if_neg (by omega), he]
              exact h3
            · rw [if_neg he] at h3
              rw [if_neg (by omega)]
              exact h3
          · exact Or.inr h3
        · intro k hk1 hk2
          by_cases hk : k = it
          · rw [if_pos hk]
            exact ⟨hcond.1, by omega⟩
          · rw [if_neg hk]
            have := h4 k (by omega) hk2
            rcases this with ⟨ha, hb⟩
            refine ⟨?_, hb⟩
            by_cases hk' : k = it + 1
            · rw [if_pos hk'] at ha
              rw [hk']
              exact ha
            · rw [if_neg hk'] at ha
              exact ha
      · rw [runLoop, dif_neg hcond]
        refine ⟨le_refl it, le_max_left it (M + 1), ?_, ?_⟩
        · rw [if_pos rfl]
          rcases not_and_or.mp hcond with h | h
          · exact Or.inl (le_of_not_lt h)
          · exact Or.inr (by omega)
        · intro k h1 h2
          omega

theorem runLoop_ge (M : ℕ) (err : ℚ) (delta : ℕ → ℚ) (it : ℕ) (dtg : ℚ) :
    it ≤ runLoop M err delta it dtg :=
  (runLoop_spec M err delta (M + 1 - it) it dtg (le_refl _)).1

theorem flatMap_range_eq_single {β : Type} (n s₀ : ℕ) (f : ℕ → List β)
    (hs : s₀ < n) (hother : ∀ s, s < n → s ≠ s₀ → f s = []) :
    (List.range n).flatMap f = f s₀ := by
  induction n with
  | zero => omega
  | succ m ih =>
      rw [List.range_succ, List.flatMap_append]
      simp only [List.flatMap_cons, List.flatMap_nil, List.append_nil]
      by_cases hm : s₀ = m
      · subst hm
        have hnil : (List.range s₀).flatMap f = [] := by
          rw [List.flatMap_eq_nil_iff]
          intro s hsmem
          have hs' : s < s₀ := List.mem_range.mp hsmem
          exact hother s (by omega) (by omega)
        rw [hnil, List.nil_append]
      · rw [hother m (by omega) (fun h => hm h.symm), List.append_nil]
        exact ih (by omega) (fun s h1 h2 => hother s (by omega) h2)

theorem matchingSends_top (R n : ℕ) (curOf : ℕ → Grid) (r : ℕ)
    (h1 : 0 < r) (h2 : r < n) :
    matchingSends R n curOf r (r - 1) 0 = [fun j => curOf (r - 1) R j] := by
  unfold matchingSends
  have hother : ∀ s, s < n → s ≠ r - 1 →
      (sendsOf R n s (curOf s)).filterMap (fun pr =>
        if s = r - 1 ∧ pr.1.peer = r ∧ pr.1.tag = 0 then some pr.2 else none) = [] := by
    intro s hs hne
    rw [List.filterMap_eq_nil_iff]
    intro pr _
    rw [if_neg]
    intro hc
    exact hne hc.1
  rw [flatMap_range_eq_single n (r - 1) _ (by omega) hother]
  have hbotne : r - 1 ≠ n - 1 := by omega
  have hinc : r - 1 + 1 = r := by omega
  have hpeer : r - 1 - 1 ≠ r := by omega
  by_cases h0 : r - 1 ≠ 0
  · simp [sendsOf, h0, hbotne, hpeer, hinc]
  · simp [sendsOf, h0, hbotne, hinc]

theorem matchingSends_bottom (R n : ℕ) (curOf : ℕ → Grid) (r : ℕ)
    (h2 : r < n - 1) :
    matchingSends R n curOf r (r + 1) 1 = [fun j => curOf (r + 1) 1 j] := by
  unfold matchingSends
  have hother : ∀ s, s < n → s ≠ r + 1 →
      (sendsOf R n s (curOf s)).filterMap (fun pr =>
        if s = r + 1 ∧ pr.1.peer = r ∧ pr.1.tag = 1 then some pr.2 else none) = [] := by
    intro s hs hne
    rw [List.filterMap_eq_nil_iff]
    intro pr _
    rw [if_neg]
    intro hc
    exact hne hc.1
  rw [flatMap_range_eq_single n (r + 1) _ (by omega) hother]
  have h0 : r + 1 ≠ 0 := by omega
  have hpeer : r + 1 + 1 ≠ r := by omega
  by_cases hb : r + 1 ≠ n - 1
  · simp [sendsOf, h0, hb, hpeer]
  · simp [sendsOf, h0, hb]

/-! ### Claims -/

/-- C1: in every iteration, each interior cell `(i, j)` with `1 ≤ i ≤ ROWS`
and `1 ≤ j ≤ COLUMNS` is written with
`0.25 * (previous[i+1][j] + previous[i-1][j] + previous[i][j+1] + previous[i][j-1])`,
all four operands read from the previous-iteration grid `temperature_last`;
for the boundary rows `i = 1` and `i = ROWS` this reads its halo rows `0` and
`ROWS + 1`. -/
theorem c1_stencil_update (last g : Grid) (R C i j : ℕ)
    (hi1 : 1 ≤ i) (hi2 : i ≤ R) (hj1 : 1 ≤ j) (hj2 : j ≤ C) :
    computeStep last R C g i j =
      (1/4) * (last (i+1) j + last (i-1) j + last i (j+1) + last i (j-1)) :=
  computeStep_cell last R C g i j hi1 hi2 hj1 hj2

/-- Witness for C1 at a concrete grid: the update of cell `(1, 1)` on a
`2 × 2` interior reads the halo row `0` of the previous grid. -/
theorem c1_stencil_update_witness :
    (1 ≤ 1 ∧ 1 ≤ 2 ∧ 1 ≤ 1 ∧ 1 ≤ 2) ∧
    computeStep gridA 2 2 gridZ 1 1 =
      (1/4) * (gridA 2 1 + gridA 0 1 + gridA 1 2 + gridA 1 0) :=
  ⟨⟨le_refl 1, by omega, le_refl 1, by omega⟩,
   c1_stencil_update gridA gridZ 2 2 1 1 (le_refl 1) (by omega) (le_refl 1) (by omega)⟩

/-- C2: the delta pass returns the maximum of `|current[i][j] - previous[i][j]|`
over all cells with `1 ≤ i ≤ ROWS`, `1 ≤ j ≤ COLUMNS` (the maximum is an upper
bound and is attained at some such cell), and the same single pass copies
`current` into `previous`, so that afterwards `previous[i][j] = current[i][j]`
for every such cell. -/
theorem c2_local_delta_pass (R C : ℕ) (cur g : Grid) (hR : 1 ≤ R) (hC : 1 ≤ C) :
    (∀ i j, 1 ≤ i → i ≤ R → 1 ≤ j → j ≤ C →
      |cur i j - g i j| ≤ (deltaPass R C cur g).1 ∧
      (deltaPass R C cur g).2 i j = cur i j) ∧
    ∃ i j, (1 ≤ i ∧ i ≤ R ∧ 1 ≤ j ∧ j ≤ C) ∧
      (deltaPass R C cur g).1 = |cur i j - g i j| := by
  obtain ⟨hfst, hsnd⟩ := deltaFold_spec cur (cellList R C) (cellList_nodup R C) 0 g
  constructor
  · intro i j h1 h2 h3 h4
    have hmem : (i, j) ∈ cellList R C := (mem_cellList R C i j).mpr ⟨h1, h2, h3, h4⟩
    constructor
    · unfold deltaPass
      rw [hfst]
      have h := (foldl_max_le (fun p : ℕ × ℕ => |cur p.1 p.2 - g p.1 p.2|)
        (cellList R C) 0).2 (i, j) hmem
      simp only [] at h
      exact h
    · unfold deltaPass
      rw [hsnd i j]
      exact if_pos hmem
  · have hmem11 : ((1 : ℕ), (1 : ℕ)) ∈ cellList R C :=
      (mem_cellList R C 1 1).mpr ⟨le_refl 1, hR, le_refl 1, hC⟩
    unfold deltaPass
    rw [hfst]
    rcases foldl_max_mem (fun p => |cur p.1 p.2 - g p.1 p.2|) (cellList R C) 0 with h | h
    · refine ⟨1, 1, ⟨le_refl 1, hR, le_refl 1, hC⟩, ?_⟩
      rw [h]
      have hle := (foldl_max_le (fun p : ℕ × ℕ => |cur p.1 p.2 - g p.1 p.2|)
        (cellList R C) 0).2 (1, 1) hmem11
      simp only [] at hle
      rw [h] at hle
      exact (le_antisymm hle (abs_nonneg _)).symm
    · obtain ⟨p, hp, he⟩ := h
      obtain ⟨pi, pj⟩ := p
      exact ⟨pi, pj, (mem_cellList R C pi pj).mp hp, he⟩

/-- Witness for C2 on a concrete `1 × 1` interior. -/
theorem c2_local_delta_pass_witness :
    (1 ≤ 1) ∧
    |gridA 1 1 - gridZ 1 1| ≤ (deltaPass 1 1 gridA gridZ).1 ∧
    (deltaPass 1 1 gridA gridZ).2 1 1 = gridA 1 1 :=
  ⟨le_refl 1,
   ((c2_local_delta_pass 1 1 gridA gridZ (le_refl 1) (le_refl 1)).1
      1 1 (le_refl 1) (le_refl 1) (le_refl 1) (le_refl 1)).1,
   ((c2_local_delta_pass 1 1 gridA gridZ (le_refl 1) (le_refl 1)).1
      1 1 (le_refl 1) (le_refl 1) (le_refl 1) (le_refl 1)).2⟩

/-- C3: starting from `iteration = 0` and `dt_global = 100`, the relaxation
loop halts after at most `MAX_NUMBER_OF_ITERATIONS + 1` body executions (the
final counter also bounds the body count, one increment per body); at exit the
resolved global delta is at or below `MAX_TEMP_ERROR` or the counter exceeds
the cap; and every body that did run passed the loop test. -/
theorem c3_loop_termination (M : ℕ) (err : ℚ) (delta : ℕ → ℚ) :
    runLoop M err delta 0 dtGlobalInit ≤ M + 1 ∧
    (dtgAt delta (runLoop M err delta 0 dtGlobalInit) ≤ err ∨
      M < runLoop M err delta 0 dtGlobalInit) ∧
    ∀ k, k < runLoop M err delta 0 dtGlobalInit → err < dtgAt delta k ∧ k ≤ M := by
  obtain ⟨h1, h2, h3, h4⟩ := runLoop_spec M err delta (M + 1) 0 dtGlobalInit (by omega)
  refine ⟨?_, ?_, ?_⟩
  · calc runLoop M err delta 0 dtGlobalInit ≤ max 0 (M + 1) := h2
      _ = M + 1 := Nat.max_eq_right (by omega)
  · rcases h3 with h3 | h3
    · left
      by_cases hz : runLoop M err delta 0 dtGlobalInit = 0
      · rw [if_pos hz] at h3
        rw [hz]
        exact h3
      · rw [if_neg hz] at h3
        obtain ⟨m, hm⟩ := Nat.exists_eq_succ_of_ne_zero hz
        rw [hm] at h3 ⊢
        exact h3
    · exact Or.inr h3
  · intro k hk
    obtain ⟨ha, hb⟩ := h4 k (Nat.zero_le k) hk
    refine ⟨?_, hb⟩
    by_cases hz : k = 0
    · rw [if_pos hz] at ha
      rw [hz]
      exact ha
    · rw [if_neg hz] at ha
      obtain ⟨m, hm⟩ := Nat.exists_eq_succ_of_ne_zero hz
      rw [hm] at ha ⊢
      exact ha

/-- Witness for C3 at a concrete configuration: cap `0`, threshold `0`, zero
deltas; the loop runs exactly one body. -/
theorem c3_loop_termination_witness :
    runLoop 0 0 zeroDelta 0 dtGlobalInit ≤ 0 + 1 ∧
    (0 : ℚ) < dtgAt zeroDelta 0 ∧
    (dtgAt zeroDelta (runLoop 0 0 zeroDelta 0 dtGlobalInit) ≤ 0 ∨
      0 < runLoop 0 0 zeroDelta 0 dtGlobalInit) := by
  have hrun : runLoop 0 0 zeroDelta 0 dtGlobalInit = 1 := by
    rw [runLoop, dif_pos ⟨by norm_num [dtGlobalInit], le_refl 0⟩]
    rw [runLoop, dif_neg]
    intro hc
    exact absurd hc.1 (by norm_num [zeroDelta])
  exact ⟨(c3_loop_termination 0 0 zeroDelta).1,
    ((c3_loop_termination 0 0 zeroDelta).2.2 0 (by rw [hrun]; norm_num)).1,
    (c3_loop_termination 0 0 zeroDelta).2.1⟩

/-- C9: `dt_global` is seeded to `100`, strictly above the convergence
threshold, so the relaxation loop body executes at least once (the final
counter, which counts body executions, is at least `1`). -/
theorem c9_loop_entry (M : ℕ) (delta : ℕ → ℚ) :
    maxTempError < dtGlobalInit ∧ 1 ≤ runLoop M maxTempError delta 0 dtGlobalInit := by
  constructor
  · norm_num [maxTempError, dtGlobalInit]
  · rw [runLoop, dif_pos ⟨by norm_num [maxTempError, dtGlobalInit], Nat.zero_le M⟩]
    exact runLoop_ge M maxTempError delta (0 + 1) (delta (0 + 1))

/-- C4: with the directional tag scheme of the code (tag 0 for a row flowing
downward, tag 1 for a row flowing upward), every posted halo receive is
matched by exactly one send; after the exchange completes, the top halo row
`previous[0][1..C]` of rank `r` equals the boundary row `current[ROWS][1..C]`
sent by rank `r-1`, and the bottom halo row `previous[R+1][1..C]` equals the
row `current[1][1..C]` sent by rank `r+1`. -/
theorem c4_halo_round_trip (R C n : ℕ) (curOf : ℕ → Grid) (g : Grid) (r : ℕ)
    (hr : r < n) :
    (0 < r →
      (matchingSends R n curOf r (r - 1) 0).length = 1 ∧
      ∀ j, 1 ≤ j → j ≤ C →
        exchangedLast R C n curOf r g 0 j = curOf (r - 1) R j) ∧
    (r < n - 1 →
      (matchingSends R n curOf r (r + 1) 1).length = 1 ∧
      ∀ j, 1 ≤ j → j ≤ C →
        exchangedLast R C n curOf r g (R + 1) j = curOf (r + 1) 1 j) := by
  constructor
  · intro h0
    refine ⟨by rw [matchingSends_top R n curOf r h0 hr]; rfl, ?_⟩
    intro j h1 h2
    unfold exchangedLast
    rw [if_pos ⟨h1, h2⟩, if_pos ⟨rfl, by omega⟩, matchingSends_top R n curOf r h0 hr]
    rfl
  · intro hlow
    refine ⟨by rw [matchingSends_bottom R n curOf r hlow]; rfl, ?_⟩
    intro j h1 h2
    have hne : ¬((R + 1 = 0 ∧ r ≠ 0)) := fun hc => absurd hc.1 (Nat.succ_ne_zero R)
    unfold exchangedLast
    rw [if_pos ⟨h1, h2⟩, if_neg hne, if_pos ⟨rfl, by omega⟩,
      matchingSends_bottom R n curOf r hlow]
    rfl

/-- Witness for C4 on a two-rank run: rank 1's top halo receives rank 0's
bottom boundary row. -/
theorem c4_halo_round_trip_witness :
    (0 < 1 ∧ 1 < 2) ∧
    (matchingSends 2 2 (fun _ => gridA) 1 0 0).length = 1 ∧
    exchangedLast 2 2 2 (fun _ => gridA) 1 gridZ 0 1 = gridA 2 1 := by
  have h := (c4_halo_round_trip 2 2 2 (fun _ => gridA) gridZ 1 (by omega)).1 (by omega)
  exact ⟨⟨by omega, by omega⟩, h.1, h.2 1 (le_refl 1) (by omega)⟩

/-- Membership characterisation of the posted sends. -/
theorem mem_sendsOf (R n r : ℕ) (cur : Grid) (pr : Post × (ℕ → ℚ)) :
    pr ∈ sendsOf R n r cur ↔
      (r ≠ 0 ∧ pr = (⟨r - 1, 1⟩, fun j => cur 1 j)) ∨
      (r ≠ n - 1 ∧ pr = (⟨r + 1, 0⟩, fun j => cur R j)) := by
  unfold sendsOf
  by_cases h0 : r ≠ 0 <;> by_cases hn : r ≠ n - 1 <;> simp [h0, hn]

/-- Membership characterisation of the posted receives. -/
theorem mem_recvsOf (n r : ℕ) (pr : Post × Slot) :
    pr ∈ recvsOf n r ↔
      (r ≠ 0 ∧ pr = (⟨r - 1, 0⟩, Slot.topHalo)) ∨
      (r ≠ n - 1 ∧ pr = (⟨r + 1, 1⟩, Slot.bottomHalo)) := by
  unfold recvsOf
  by_cases h0 : r ≠ 0 <;> by_cases hn : r ≠ n - 1 <;> simp [h0, hn]

/-- C7: each of the four possible transfers is only posted when its target
neighbour exists: rank 0 posts no upward send (tag 1) and no top-halo
receive, rank `n-1` posts no downward send (tag 0) and no bottom-halo
receive, and in a single-process run no transfer is posted at all. -/
theorem c7_neighbour_guards (R n r : ℕ) (cur : Grid) :
    (r = 0 → ∀ pr ∈ sendsOf R n r cur, pr.1.tag ≠ 1) ∧
    (r = 0 → ∀ pr ∈ recvsOf n r, pr.2 ≠ Slot.topHalo) ∧
    (r = n - 1 → ∀ pr ∈ sendsOf R n r cur, pr.1.tag ≠ 0) ∧
    (r = n - 1 → ∀ pr ∈ recvsOf n r, pr.2 ≠ Slot.bottomHalo) ∧
    (n = 1 → r = 0 → sendsOf R n r cur = [] ∧ recvsOf n r = []) := by
  refine ⟨?_, ?_, ?_, ?_, ?_⟩
  · rintro rfl pr hpr
    rcases (mem_sendsOf R n 0 cur pr).mp hpr with ⟨h, _⟩ | ⟨_, he⟩
    · exact absurd rfl h
    · rw [he]
      exact Nat.zero_ne_one
  · rintro rfl pr hpr
    rcases (mem_recvsOf n 0 pr).mp hpr with ⟨h, _⟩ | ⟨_, he⟩
    · exact absurd rfl h
    · rw [he]
      simp
  · rintro rfl pr hpr
    rcases (mem_sendsOf R n (n - 1) cur pr).mp hpr with ⟨_, he⟩ | ⟨h, _⟩
    · rw [he]
      exact Nat.one_ne_zero
    · exact absurd rfl h
  · rintro rfl pr hpr
    rcases (mem_recvsOf n (n - 1) pr).mp hpr with ⟨_, he⟩ | ⟨h, _⟩
    · rw [he]
      simp
    · exact absurd rfl h
  · rintro rfl rfl
    exact ⟨rfl, rfl⟩

/-- Witness for C7: a single-process run posts nothing; on a two-rank run,
the one send rank 0 posts is not an upward (tag 1) send. -/
theorem c7_neighbour_guards_witness :
    (sendsOf 1 1 0 gridZ = [] ∧ recvsOf 1 0 = []) ∧
    ((⟨⟨1, 0⟩, fun j => gridZ 1 j⟩ : Post × (ℕ → ℚ)).1.tag ≠ 1) :=
  ⟨(c7_neighbour_guards 1 1 0 gridZ).2.2.2.2 rfl rfl,
   (c7_neighbour_guards 1 2 0 gridZ).1 rfl _
     ((mem_sendsOf 1 2 0 gridZ _).mpr (Or.inr ⟨by omega, rfl⟩))⟩

/-- C8: at startup, if the provided threading support is below the demanded
level, or the profile is `hybrid_small` with a process count other than 2, or
`hybrid_big` with a process count other than 8, the program prints a
diagnostic naming the mismatch and aborts the whole run with a non-zero
status; otherwise no startup abort occurs. -/
theorem c8_startup_validation (v : String) (cs p tm : ℕ) :
    ((startupCheck v cs p tm).isSome = true ↔
      p < tm ∨ (v = "hybrid_small" ∧ cs ≠ 2) ∨ (v = "hybrid_big" ∧ cs ≠ 8)) ∧
    ∀ a, startupCheck v cs p tm = some a → a.status ≠ 0 := by
  unfold startupCheck
  by_cases h1 : p < tm
  · simp [h1, exitFailureCode]
  · by_cases h2 : v = "hybrid_small" ∧ cs ≠ 2
    · simp [h1, h2, exitFailureCode]
    · by_cases h3 : v = "hybrid_big" ∧ cs ≠ 8
      · simp [h1, h2, h3, exitFailureCode]
      · simp [h1, h2, h3]

/-- Witness for C8: profile `hybrid_small` with 3 processes aborts with a
non-zero status. -/
theorem c8_startup_validation_witness :
    (startupCheck "hybrid_small" 3 1 1).isSome = true ∧
    AbortAction.status
      ⟨"The small version is meant to be run with 2 MPI processes.",
        exitFailureCode⟩ ≠ 0 :=
  ⟨(c8_startup_validation "hybrid_small" 3 1 1).1.mpr
      (Or.inr (Or.inl ⟨rfl, by omega⟩)),
   (c8_startup_validation "hybrid_small" 3 1 1).2 _ rfl⟩

/-- C5 counterexample: the claim says the next iteration's exchange launch
happens after the local-delta/copy-forward pass has completed; in the body's
program order the launch (lines 130-155) in fact precedes the barrier
(line 181) and hence the delta/copy pass (lines 183-192). -/
theorem c5_launch_order_counterexample :
    ¬ eventPos Event.deltaCopyPass < eventPos Event.launchHaloExchange ∧
    eventPos Event.launchHaloExchange < eventPos Event.deltaCopyPass := by
  decide

/-- C5 (amended): the launch of the next iteration's halo exchange happens
after the current iteration's boundary-row updates have completed, and before
the barrier-ordered local-delta/copy-forward pass. -/
theorem c5_amended_launch_order :
    eventPos Event.updateTopRow < eventPos Event.launchHaloExchange ∧
    eventPos Event.updateBottomRow < eventPos Event.launchHaloExchange ∧
    eventPos Event.launchHaloExchange < eventPos Event.ompBarrier ∧
    eventPos Event.ompBarrier < eventPos Event.deltaCopyPass := by
  decide

/-- C6: in the loop body, the wait on the previous iteration's top send
request precedes the write of row 1, and the wait on the previous bottom send
request precedes the write of row `ROWS`; a row used as a send source is thus
never overwritten while a send referencing it may still be in flight. -/
theorem c6_send_wait_before_write :
    eventPos Event.waitTopSend < eventPos Event.updateTopRow ∧
    eventPos Event.waitBottomSend < eventPos Event.updateBottomRow := by
  decide

/-- C10: before the loop, the four request handles are `MPI_REQUEST_NULL` and
a wait on a null request does not block; the first body's boundary-row update
therefore proceeds immediately and reads the halo rows `0` and `R+1` of
`temperature_last` exactly as produced by `initialise_temperatures`; the
first halo exchange is launched only during body 1. -/
theorem c10_first_iteration (R C : ℕ) (hu hd : Bool) (inTop inBot : ℕ → ℕ → ℚ)
    (cur0 last0 : Grid) (j : ℕ) (hR : 1 ≤ R) (hj1 : 1 ≤ j) (hj2 : j ≤ C) :
    initRequests = (Req.null, Req.null, Req.null, Req.null) ∧
    waitBlocks Req.null = false ∧
    (simStateAt R C hu hd inTop inBot cur0 last0 0).reqsNull = true ∧
    (simStateAt R C hu hd inTop inBot cur0 last0 0).exchangesLaunched = 0 ∧
    (simStateAt R C hu hd inTop inBot cur0 last0 1).cur 1 j =
      (1/4) * (last0 2 j + last0 0 j + last0 1 (j+1) + last0 1 (j-1)) ∧
    (simStateAt R C hu hd inTop inBot cur0 last0 1).cur R j =
      (1/4) * (last0 (R+1) j + last0 (R-1) j + last0 R (j+1) + last0 R (j-1)) ∧
    (simStateAt R C hu hd inTop inBot cur0 last0 1).exchangesLaunched =
      (if hu || hd then 1 else 0) := by
  refine ⟨rfl, rfl, rfl, rfl, ?_, ?_, ?_⟩
  · have hc : (simStateAt R C hu hd inTop inBot cur0 last0 1).cur =
        computeStep last0 R C cur0 := rfl
    rw [hc]
    exact computeStep_cell last0 R C cur0 1 j (le_refl 1) hR hj1 hj2
  · have hc : (simStateAt R C hu hd inTop inBot cur0 last0 1).cur =
        computeStep last0 R C cur0 := rfl
    rw [hc]
    exact computeStep_cell last0 R C cur0 R j hR (le_refl R) hj1 hj2
  · show 0 + (if hu || hd then 1 else 0) = (if hu || hd then 1 else 0)
    exact Nat.zero_add _

/-- Witness for C10 on a concrete `1 × 1` grid pair. -/
theorem c10_first_iteration_witness :
    (1 ≤ 1) ∧
    initRequests = (Req.null, Req.null, Req.null, Req.null) ∧
    waitBlocks Req.null = false ∧
    (simStateAt 1 1 false false (fun _ _ => 0) (fun _ _ => 0) gridZ gridA 0).reqsNull
      = true ∧
    (simStateAt 1 1 false false (fun _ _ => 0) (fun _ _ => 0) gridZ gridA 1).cur 1 1 =
      (1/4) * (gridA 2 1 + gridA 0 1 + gridA 1 2 + gridA 1 0) := by
  have h := c10_first_iteration 1 1 false false (fun _ _ => 0) (fun _ _ => 0)
    gridZ gridA 1 (le_refl 1) (le_refl 1) (le_refl 1)
  exact ⟨le_refl 1, h.1, h.2.1, h.2.2.1, h.2.2.2.2.1⟩

end HybridCpu
